import Mathlib

set_option linter.unusedSectionVars false

/-!
Shallow embedding of the `partitionmap` Go package (`partitionmap.go`):
a partitioned key/value map with 128 lazily created partitions, keys routed
to a partition either by an integer fast path (value modulo 128) or by a
CRC32 (Castagnoli) checksum of the key's byte representation.

Go maps are modelled as association lists with unique keys; Go's in-place
mutation is modelled by explicit state passing; the `nil`-receiver checks of
every exported method are modelled by wrappers over `Option`.
-/

namespace PartitionMap

/-- The number of partitions to use for the key/value pairs
(constant `numberOfPartitionsInMap` in `partitionmap.go`). -/
def numberOfPartitionsInMap : Nat := 128

/-! ### CRC32 (Castagnoli), modelling `hash/crc32` with `crc32.Castagnoli` -/

/-- The reversed Castagnoli polynomial used by Go's `crc32.Castagnoli` table. -/
def crc32CastagnoliPoly : Nat := 0x82F63B78

/-- One bit-step of the reflected CRC32 algorithm. -/
def crc32Step (c : Nat) : Nat :=
  if c % 2 = 1 then (c / 2) ^^^ crc32CastagnoliPoly else c / 2

/-- Process one input byte `b` (with `b < 256`) of the reflected CRC32. -/
def crc32Byte (c b : Nat) : Nat := Nat.iterate crc32Step 8 (c ^^^ b)

/-- `crc32.Checksum(bytes, crc32.MakeTable(crc32.Castagnoli))`: the bitwise
(table-free) form of the reflected CRC32 with initial value `0xFFFFFFFF`
and final complement. -/
def crc32Checksum (bytes : List Nat) : Nat :=
  0xFFFFFFFF ^^^ bytes.foldl crc32Byte 0xFFFFFFFF

/-- UTF-8 encoding of a single character, as Go's `[]byte(string)` produces. -/
def utf8BytesOfChar (c : Char) : List Nat :=
  let n := c.toNat
  if n < 0x80 then [n]
  else if n < 0x800 then [0xC0 + n / 0x40, 0x80 + n % 0x40]
  else if n < 0x10000 then [0xE0 + n / 0x1000, 0x80 + n / 0x40 % 0x40, 0x80 + n % 0x40]
  else [0xF0 + n / 0x40000, 0x80 + n / 0x1000 % 0x40, 0x80 + n / 0x40 % 0x40, 0x80 + n % 0x40]

/-- The byte sequence of a Go string (`[]byte(val)`): UTF-8 encoding. -/
def stringBytes (s : String) : List Nat := s.data.flatMap utf8BytesOfChar

/-! ### `partitionIndex` (`partitionmap.go`, lines 334-385) -/

/-- Go's `uint64(val)` conversion of a signed or unsigned integer value:
two's-complement reduction modulo `2^64` (for every Go integer type the
conversion to `uint64` is sign extension followed by reinterpretation,
i.e. the value modulo `2^64`). -/
def uint64OfInt (val : Int) : Nat := (val % (2 : Int) ^ 64).toNat

/-- `partitionIndex` for an integer-typed key (the `int`/`int8`/.../`uint64`/
`uintptr` cases of the type switch): convert to `uint64`; if the result is
positive take it modulo the number of partitions, otherwise fall through to
the CRC32 checksum of the (never assigned, hence empty) byte slice. -/
def partitionIndexInt (val : Int) : Nat :=
  let uintKey := uint64OfInt val
  if 0 < uintKey then uintKey % numberOfPartitionsInMap
  else crc32Checksum [] % numberOfPartitionsInMap

/-- `partitionIndex` for a string key (the `string` case of the type switch):
`uintKey` stays `0`, so the CRC32 checksum of the key's bytes is reduced
modulo the number of partitions. -/
def partitionIndexString (s : String) : Nat :=
  crc32Checksum (stringBytes s) % numberOfPartitionsInMap

/-- The key-to-slot routing interface: each supported key type computes its
partition index through the corresponding branch of `partitionIndex`'s
type switch. -/
class PartitionKey (K : Type) where
  pidx : K → Nat
  pidx_lt : ∀ k, pidx k < numberOfPartitionsInMap

instance : PartitionKey Int :=
  ⟨partitionIndexInt, fun val => by
    unfold partitionIndexInt
    dsimp only
    split <;> exact Nat.mod_lt _ (by decide)⟩

instance : PartitionKey String :=
  ⟨partitionIndexString, fun s => Nat.mod_lt _ (by decide)⟩

/-- The partition index of a key, packaged as a valid index into the
fixed-size slot array. -/
def slotOf {K : Type} [PartitionKey K] (k : K) : Fin numberOfPartitionsInMap :=
  ⟨PartitionKey.pidx k, PartitionKey.pidx_lt k⟩

/-! ### `tPartition` (`partitionmap.go`, lines 27-276) -/

/-- A single partition: its key/value store `kv` (a Go map, modelled as an
association list with unique keys). The mutex is concurrency-only state
and has no observable pure content. -/
structure tPartition (K V : Type) where
  kv : List (K × V)

namespace tPartition

variable {K V : Type} [LinearOrder K] [DecidableEq K]

/-- `newPartition()`: a partition with an empty key/value store. -/
def newPartition : tPartition K V := ⟨[]⟩

/-- `clear()`: removes all key/value pairs from the partition. -/
def clear (_ : tPartition K V) : tPartition K V := ⟨[]⟩

/-- `del(aKey)`: removes the pair with key `aKey`, if present. -/
def del (p : tPartition K V) (k : K) : tPartition K V :=
  ⟨p.kv.filter (fun e => decide (e.1 ≠ k))⟩

/-- `get(aKey)`: the value stored under `aKey` together with a found flag;
the zero value of `V` and `false` when absent. -/
def get [Inhabited V] (p : tPartition K V) (k : K) : V × Bool :=
  match p.kv.find? (fun e => decide (e.1 = k)) with
  | some e => (e.2, true)
  | none => (default, false)

/-- `put(aKey, aVal)`: Go map assignment `p.kv[aKey] = aVal` — replaces any
existing pair with key `aKey` and stores the new pair. -/
def put (p : tPartition K V) (k : K) (v : V) : tPartition K V :=
  ⟨p.kv.filter (fun e => decide (e.1 ≠ k)) ++ [(k, v)]⟩

/-- `keys()`: all keys of the partition, sorted ascending (`slices.Sort`,
modelled by insertion sort). -/
def keys (p : tPartition K V) : List K :=
  (p.kv.map Prod.fst).insertionSort (· ≤ ·)

/-- `len()`: the number of key/value pairs in the partition. -/
def len (p : tPartition K V) : Nat := p.kv.length

/-- `String()`: one line per pair in ascending key order, each line
`fmt.Sprintf` of the pattern percent-v colon space quoted-percent-v newline,
i.e. the key, then ": ", then the value wrapped in single quotes, then a
newline. `showK`/`showV` model Go's percent-v rendering of `K` and `V`. -/
def toString [Inhabited V] (showK : K → String) (showV : V → String)
    (p : tPartition K V) : String :=
  String.join ((p.keys).map (fun k =>
    showK k ++ ": \x27" ++ showV (p.get k).1 ++ "\x27\n"))

end tPartition

/-! ### `TPartitionMap` (`partitionmap.go`, lines 281-743) -/

/-- The partitioned map: a fixed array of 128 slots, each empty (`none`) or
holding a partition. -/
structure TPartitionMap (K V : Type) where
  parts : Fin numberOfPartitionsInMap → Option (tPartition K V)

namespace TPartitionMap

variable {K V : Type} [LinearOrder K] [DecidableEq K] [PartitionKey K]

/-- `New()`: all slots empty; partitions are created lazily. -/
def New : TPartitionMap K V := ⟨fun _ => none⟩

/-- Assignment `(pm.tPartitionList)[idx] = p` of a partition into a slot. -/
def setSlot (m : TPartitionMap K V) (i : Fin numberOfPartitionsInMap)
    (p : tPartition K V) : TPartitionMap K V :=
  ⟨fun j => if j = i then some p else m.parts j⟩

/-- `partition(aKey, aCreate)`: resolve the slot of `aKey`; if empty and
`aCreate`, install a new empty partition. Returns the (possibly updated)
map together with the resolved partition (`none` models the `nil, false`
return). -/
def partition (m : TPartitionMap K V) (k : K) (create : Bool) :
    TPartitionMap K V × Option (tPartition K V) :=
  let idx := slotOf k
  match m.parts idx with
  | some p => (m, some p)
  | none =>
    if create then
      let p : tPartition K V := tPartition.newPartition
      (m.setSlot idx p, some p)
    else (m, none)

/-- `Clear()`: delegates `clear` to every slot (`p.clear()` is a no-op on an
empty slot's nil pointer). -/
def Clear (m : TPartitionMap K V) : TPartitionMap K V :=
  ⟨fun i => (m.parts i).map tPartition.clear⟩

/-- `Delete(aKey)`: resolve without creation; if a partition exists,
delegate `del`. -/
def Delete (m : TPartitionMap K V) (k : K) : TPartitionMap K V :=
  match (m.partition k false).2 with
  | some p => m.setSlot (slotOf k) (p.del k)
  | none => m

/-- `Get(aKey)`: resolve without creation; delegate `get`, else the zero
value and `false`. (`partition` with `aCreate == false` never mutates.) -/
def Get [Inhabited V] (m : TPartitionMap K V) (k : K) : V × Bool :=
  match (m.partition k false).2 with
  | some p => p.get k
  | none => (default, false)

/-- `Put(aKey, aValue)`: resolve with creation; delegate `put`. -/
def Put (m : TPartitionMap K V) (k : K) (v : V) : TPartitionMap K V :=
  match m.partition k true with
  | (m2, some p) => m2.setSlot (slotOf k) (p.put k v)
  | (m2, none) => m2

/-- The nil-safe `p.len()` call made on each slot by `Len()`/`Keys()`. -/
def optionLen (op : Option (tPartition K V)) : Nat :=
  match op with
  | some p => p.len
  | none => 0

/-- `Len()`: the sum of `p.len()` over all slots. -/
def Len (m : TPartitionMap K V) : Nat :=
  ((List.finRange numberOfPartitionsInMap).map (fun i => optionLen (m.parts i))).sum

/-- The keys contributed by one slot in `Keys()`'s collection loop
(an empty slot contributes nothing). -/
def optionKeys (op : Option (tPartition K V)) : List K :=
  match op with
  | some p => p.keys
  | none => []

/-- The concatenation, in slot order, of each allocated partition's keys —
the `result` slice of `Keys()` before the final sort. -/
def allKeys (m : TPartitionMap K V) : List K :=
  (List.finRange numberOfPartitionsInMap).flatMap (fun i => optionKeys (m.parts i))

/-- `Keys()`: count all keys first (the `totalKeys` loop is exactly `Len()`'s
loop) and short-circuit to the empty slice; otherwise collect every
partition's keys and sort the concatenation ascending. -/
def Keys (m : TPartitionMap K V) : List K :=
  if m.Len = 0 then []
  else (allKeys m).insertionSort (· ≤ ·)

/-- `Values()`: for each key of `Keys()` re-resolve its partition and
re-`get` the value, appending only when both lookups succeed. -/
def Values [Inhabited V] (m : TPartitionMap K V) : List V :=
  (m.Keys).filterMap (fun k =>
    match (m.partition k false).2 with
    | some p =>
      let r := p.get k
      if r.2 then some r.1 else none
    | none => none)

/-- `String()`: concatenate every slot's partition `String()` in slot order
(a nil slot renders as the empty string). -/
def mapToString [Inhabited V] (showK : K → String) (showV : V → String)
    (m : TPartitionMap K V) : String :=
  String.join ((List.finRange numberOfPartitionsInMap).map (fun i =>
    match m.parts i with
    | some p => p.toString showK showV
    | none => ""))

/-- The sequence of key/value pairs handed to `ForEach`'s callback: each
allocated slot's pairs, slots in ascending index order. -/
def forEachVisits (m : TPartitionMap K V) : List (K × V) :=
  (List.finRange numberOfPartitionsInMap).flatMap (fun i =>
    match m.parts i with
    | some p => p.kv
    | none => [])

end TPartitionMap

/-! ### `TMetrics` and `PartitionStats()` (`partitionmap.go`, lines 608-661) -/

/-- `TMetrics`: partition-usage statistics. `PartKeys` (a Go `map[int]int`)
is modelled as the association list of (slot index, key count) pairs. -/
structure TMetrics where
  Parts : Nat
  Keys : Nat
  Avg : Nat
  PartKeys : List (Nat × Nat)
deriving DecidableEq

namespace TPartitionMap

variable {K V : Type} [LinearOrder K] [DecidableEq K] [PartitionKey K]

/-- `PartitionStats()`: for every allocated slot record its key count;
`Avg` is the integer quotient, left `0` when no partition or no key
exists. -/
def PartitionStats (m : TPartitionMap K V) : TMetrics :=
  let entries := (List.finRange numberOfPartitionsInMap).filterMap
    (fun i => (m.parts i).map (fun p => (i.val, p.len)))
  let parts := entries.length
  let keys := (entries.map Prod.snd).sum
  ⟨parts, keys, if parts = 0 ∨ keys = 0 then 0 else keys / parts, entries⟩

end TPartitionMap

/-! ### Nil-receiver wrappers

Every exported method begins with `if nil == pm`; a map reference is
therefore modelled as `Option (TPartitionMap K V)` with `none` standing for
the nil reference, and each wrapper reproduces the method's nil branch.
`KeysRef`/`ValuesRef` return `Option` because Go distinguishes the nil
slice returned for a nil receiver from the non-nil (possibly empty) slice
returned otherwise. -/

namespace TPartitionMap

variable {K V : Type} [LinearOrder K] [DecidableEq K] [PartitionKey K]

def PutRef (pm : Option (TPartitionMap K V)) (k : K) (v : V) :
    Option (TPartitionMap K V) :=
  match pm with
  | none => none
  | some m => some (m.Put k v)

def GetRef [Inhabited V] (pm : Option (TPartitionMap K V)) (k : K) : V × Bool :=
  match pm with
  | none => (default, false)
  | some m => m.Get k

def GetOrDefaultRef [Inhabited V] (pm : Option (TPartitionMap K V)) (k : K)
    (d : V) : V :=
  match pm with
  | none => d
  | some m =>
    let r := m.Get k
    if r.2 then r.1 else d

def DeleteRef (pm : Option (TPartitionMap K V)) (k : K) :
    Option (TPartitionMap K V) :=
  match pm with
  | none => none
  | some m => some (m.Delete k)

def ClearRef (pm : Option (TPartitionMap K V)) : Option (TPartitionMap K V) :=
  match pm with
  | none => none
  | some m => some m.Clear

/-- `ForEach`: the returned self reference together with the visited pairs
(none are visited on a nil receiver). -/
def ForEachRef (pm : Option (TPartitionMap K V)) :
    Option (TPartitionMap K V) × List (K × V) :=
  match pm with
  | none => (none, [])
  | some m => (some m, forEachVisits m)

def KeysRef (pm : Option (TPartitionMap K V)) : Option (List K) :=
  match pm with
  | none => none
  | some m => some m.Keys

def LenRef (pm : Option (TPartitionMap K V)) : Nat :=
  match pm with
  | none => 0
  | some m => m.Len

def ValuesRef [Inhabited V] (pm : Option (TPartitionMap K V)) :
    Option (List V) :=
  match pm with
  | none => none
  | some m => some m.Values

def PartitionStatsRef (pm : Option (TPartitionMap K V)) : Option TMetrics :=
  match pm with
  | none => none
  | some m => some m.PartitionStats

def StringRef [Inhabited V] (showK : K → String) (showV : V → String)
    (pm : Option (TPartitionMap K V)) : String :=
  match pm with
  | none => ""
  | some m => m.mapToString showK showV

/-! ### Reachability and the routing invariant -/

/-- The maps constructible by `New` followed by any sequence of
`Put`/`Delete`/`Clear`. -/
inductive Reachable : TPartitionMap K V → Prop
  | new : Reachable New
  | put (m : TPartitionMap K V) (k : K) (v : V) :
      Reachable m → Reachable (m.Put k v)
  | del (m : TPartitionMap K V) (k : K) :
      Reachable m → Reachable (m.Delete k)
  | clear (m : TPartitionMap K V) :
      Reachable m → Reachable m.Clear

/-- The structural invariant of every reachable map: each allocated
partition stores pairwise-distinct keys, all of which route to its own
slot. -/
def Inv (m : TPartitionMap K V) : Prop :=
  ∀ i p, m.parts i = some p →
    (p.kv.map Prod.fst).Nodup ∧ ∀ e ∈ p.kv, slotOf e.1 = i

/-- The slot array `pm.tPartitionList` as a list, for length statements. -/
def slotList (m : TPartitionMap K V) : List (Option (tPartition K V)) :=
  (List.finRange numberOfPartitionsInMap).map m.parts

/-- The partition `Put` writes through: the already-allocated one, or the
freshly installed empty partition. -/
def putTarget (m : TPartitionMap K V) (i : Fin numberOfPartitionsInMap) :
    tPartition K V :=
  (m.parts i).getD tPartition.newPartition

/-- The lines one slot contributes to the map's `String()` output. -/
def slotLines [Inhabited V] (showK : K → String) (showV : V → String)
    (m : TPartitionMap K V) (i : Fin numberOfPartitionsInMap) : List String :=
  match m.parts i with
  | some p => p.keys.map (fun k => showK k ++ ": \x27" ++ showV (p.get k).1 ++ "\x27\n")
  | none => []

/-- Modelled from the spec: `Stringify()` output as §8 "Sorted enumeration"
describes it — one `key: value` line per entry (trailing newline), the lines
in the same ascending-key order as `Keys()`. -/
def specStringify [Inhabited V] (showK : K → String) (showV : V → String)
    (m : TPartitionMap K V) : String :=
  String.join ((m.Keys).map (fun k => showK k ++ ": " ++ showV ((m.Get k).1) ++ "\n"))

end TPartitionMap

/-! ### Theorems -/

theorem numberOfPartitionsInMap_pos : 0 < numberOfPartitionsInMap := by decide

theorem partitionIndexInt_lt (val : Int) :
    partitionIndexInt val < numberOfPartitionsInMap := by
  unfold partitionIndexInt
  dsimp only
  split <;> exact Nat.mod_lt _ numberOfPartitionsInMap_pos

theorem partitionIndexString_lt (s : String) :
    partitionIndexString s < numberOfPartitionsInMap :=
  Nat.mod_lt _ numberOfPartitionsInMap_pos

namespace tPartition

variable {K V : Type} [LinearOrder K] [DecidableEq K]

/-! #### Lemmas about a single partition -/


/-- `find?` for key `k` fails on a list filtered to keys other than `k`. -/
theorem find?_filter_self (l : List (K × V)) (k : K) :
    (l.filter (fun e => decide (e.1 ≠ k))).find? (fun e => decide (e.1 = k)) = none := by
  rw [List.find?_eq_none]
  intro e he
  have h2 := (List.mem_filter.mp he).2
  simp only [decide_eq_true_eq] at h2 ⊢
  exact h2

/-- Filtering out key `k` does not disturb `find?` for a different key. -/
theorem find?_filter_ne (l : List (K × V)) (k k2 : K) (h : k2 ≠ k) :
    (l.filter (fun e => decide (e.1 ≠ k))).find? (fun e => decide (e.1 = k2))
      = l.find? (fun e => decide (e.1 = k2)) := by
  induction l with
  | nil => rfl
  | cons e es ih =>
    by_cases hek : e.1 = k
    · have hne : ¬ e.1 = k2 := fun hc => h (hc ▸ hek ▸ rfl)
      rw [List.filter_cons_of_neg (by simpa using hek),
        List.find?_cons_of_neg _ (by simpa using hne), ih]
    · rw [List.filter_cons_of_pos (by simpa using hek)]
      by_cases he2 : e.1 = k2
      · rw [List.find?_cons_of_pos _ (by simpa using he2),
          List.find?_cons_of_pos _ (by simpa using he2)]
      · rw [List.find?_cons_of_neg _ (by simpa using he2),
          List.find?_cons_of_neg _ (by simpa using he2), ih]

theorem found_iff [Inhabited V] (p : tPartition K V) (k : K) :
    (p.get k).2 = true ↔ ∃ e ∈ p.kv, e.1 = k := by
  rcases hf : p.kv.find? (fun e => decide (e.1 = k)) with _ | e
  · rw [get, hf]
    rw [List.find?_eq_none] at hf
    constructor
    · intro hc
      exact absurd hc (by simp)
    · rintro ⟨e, he, hk⟩
      exact absurd (by simpa using hf e he) (by simp [hk])
  · have hp := List.find?_some hf
    have hm := List.mem_of_find?_eq_some hf
    simp only [decide_eq_true_eq] at hp
    rw [get, hf]
    exact ⟨fun _ => ⟨e, hm, hp⟩, fun _ => rfl⟩

theorem get_put_self [Inhabited V] (p : tPartition K V) (k : K) (v : V) :
    (p.put k v).get k = (v, true) := by
  rw [get, put]
  show (match (((p.kv.filter (fun e => decide (e.1 ≠ k))) ++
      [(k, v)]).find? (fun e => decide (e.1 = k))) with
    | some e => (e.2, true)
    | none => (default, false)) = (v, true)
  rw [List.find?_append, find?_filter_self, Option.none_or,
    List.find?_cons_of_pos _ (by simp)]

theorem get_put_ne [Inhabited V] (p : tPartition K V) (k k2 : K) (v : V)
    (h : k2 ≠ k) : (p.put k v).get k2 = p.get k2 := by
  have h2 : (List.find? (fun e => decide (e.1 = k2)) [(k, v)]) = none := by
    rw [List.find?_eq_none]
    intro e he
    simp only [List.mem_singleton] at he
    simp [he, Ne.symm h]
  rw [get, get, put]
  show (match (((p.kv.filter (fun e => decide (e.1 ≠ k))) ++
      [(k, v)]).find? (fun e => decide (e.1 = k2))) with
    | some e => (e.2, true)
    | none => (default, false)) = _
  rw [List.find?_append, h2, Option.or_none, find?_filter_ne _ _ _ h]

theorem get_del_self [Inhabited V] (p : tPartition K V) (k : K) :
    (p.del k).get k = (default, false) := by
  rw [get, del]
  show (match ((p.kv.filter (fun e => decide (e.1 ≠ k))).find?
      (fun e => decide (e.1 = k))) with
    | some e => (e.2, true)
    | none => (default, false)) = (default, false)
  rw [find?_filter_self]

theorem get_del_ne [Inhabited V] (p : tPartition K V) (k k2 : K)
    (h : k2 ≠ k) : (p.del k).get k2 = p.get k2 := by
  rw [get, get, del]
  show (match ((p.kv.filter (fun e => decide (e.1 ≠ k))).find?
      (fun e => decide (e.1 = k2))) with
    | some e => (e.2, true)
    | none => (default, false)) = _
  rw [find?_filter_ne _ _ _ h]

theorem del_eq_self_of_not_found [Inhabited V] (p : tPartition K V) (k : K)
    (h : (p.get k).2 = false) : p.del k = p := by
  rw [del]
  have heq : p.kv.filter (fun e => decide (e.1 ≠ k)) = p.kv := by
    rw [List.filter_eq_self]
    intro e he
    simp only [decide_eq_true_eq]
    intro hk
    have h2 : (p.get k).2 = true := (found_iff p k).mpr ⟨e, he, hk⟩
    rw [h] at h2
    exact Bool.false_ne_true h2
  rw [heq]

theorem keys_perm (p : tPartition K V) : p.keys.Perm (p.kv.map Prod.fst) :=
  List.perm_insertionSort _ _

theorem sorted_keys (p : tPartition K V) : p.keys.Sorted (· ≤ ·) :=
  List.sorted_insertionSort _ _

theorem length_keys (p : tPartition K V) : p.keys.length = p.len := by
  rw [keys, len, List.length_insertionSort, List.length_map]

theorem mem_keys [Inhabited V] (p : tPartition K V) (k : K) :
    k ∈ p.keys ↔ (p.get k).2 = true := by
  rw [keys, List.mem_insertionSort, found_iff]
  simp only [List.mem_map]

theorem nodup_keys_put (p : tPartition K V) (k : K) (v : V)
    (h : (p.kv.map Prod.fst).Nodup) :
    ((p.put k v).kv.map Prod.fst).Nodup := by
  rw [put]
  simp only [List.map_append, List.map_cons, List.map_nil]
  rw [List.nodup_append]
  refine ⟨h.sublist (List.Sublist.map Prod.fst (List.filter_sublist _)),
    List.nodup_singleton _, ?_⟩
  intro x hx
  rcases List.mem_map.mp hx with ⟨e, he, hex⟩
  have h2 := (List.mem_filter.mp he).2
  simp only [decide_eq_true_eq] at h2
  simp only [List.mem_singleton]
  intro hxk
  exact h2 (hex ▸ hxk)

theorem nodup_keys_del (p : tPartition K V) (k : K)
    (h : (p.kv.map Prod.fst).Nodup) :
    ((p.del k).kv.map Prod.fst).Nodup := by
  rw [del]
  exact h.sublist (List.Sublist.map Prod.fst (List.filter_sublist _))

end tPartition

namespace TPartitionMap

variable {K V : Type} [LinearOrder K] [DecidableEq K] [PartitionKey K]

/-! #### Resolution and slot lemmas -/


theorem partition_false_fst (m : TPartitionMap K V) (k : K) :
    (m.partition k false).1 = m := by
  rw [partition]
  rcases h : m.parts (slotOf k) with _ | p <;> simp [h]

theorem partition_false_snd (m : TPartitionMap K V) (k : K) :
    (m.partition k false).2 = m.parts (slotOf k) := by
  rw [partition]
  rcases h : m.parts (slotOf k) with _ | p <;> simp [h]

theorem setSlot_parts (m : TPartitionMap K V) (i : Fin numberOfPartitionsInMap)
    (p : tPartition K V) (j : Fin numberOfPartitionsInMap) :
    (m.setSlot i p).parts j = if j = i then some p else m.parts j := rfl

theorem setSlot_eq_self (m : TPartitionMap K V) (i : Fin numberOfPartitionsInMap)
    (p : tPartition K V) (h : m.parts i = some p) : m.setSlot i p = m := by
  cases m with
  | mk f =>
    simp only [setSlot]
    congr 1
    funext j
    by_cases hj : j = i
    · subst hj
      simpa using h.symm
    · simp [hj]

theorem Get_eq [Inhabited V] (m : TPartitionMap K V) (k : K) :
    m.Get k = match m.parts (slotOf k) with
      | some p => p.get k
      | none => (default, false) := by
  rw [Get, partition_false_snd]

theorem Put_parts (m : TPartitionMap K V) (k : K) (v : V)
    (j : Fin numberOfPartitionsInMap) :
    (m.Put k v).parts j =
      if j = slotOf k then some ((m.putTarget (slotOf k)).put k v)
      else m.parts j := by
  rw [Put, partition]
  rcases h : m.parts (slotOf k) with _ | p
  · simp only [h, putTarget, Option.getD_none]
    by_cases hj : j = slotOf k <;> simp [setSlot_parts, hj]
  · simp only [h, putTarget, Option.getD_some, setSlot_parts]

theorem Delete_eq_of_none (m : TPartitionMap K V) (k : K)
    (h : m.parts (slotOf k) = none) : m.Delete k = m := by
  rw [Delete]
  rw [partition_false_snd, h]

theorem Delete_parts_of_some (m : TPartitionMap K V) (k : K) (p : tPartition K V)
    (h : m.parts (slotOf k) = some p) (j : Fin numberOfPartitionsInMap) :
    (m.Delete k).parts j =
      if j = slotOf k then some (p.del k) else m.parts j := by
  rw [Delete]
  rw [partition_false_snd, h]
  simp [setSlot_parts]

theorem Clear_parts (m : TPartitionMap K V) (i : Fin numberOfPartitionsInMap) :
    m.Clear.parts i = (m.parts i).map tPartition.clear := rfl

/-! #### Map-level get/put/delete lemmas -/

theorem get_newPartition [Inhabited V] (k : K) :
    (tPartition.newPartition : tPartition K V).get k = (default, false) := rfl

theorem Get_Put_self [Inhabited V] (m : TPartitionMap K V) (k : K) (v : V) :
    (m.Put k v).Get k = (v, true) := by
  rw [Get_eq, Put_parts, if_pos rfl]
  exact tPartition.get_put_self _ k v

theorem Get_Put_ne [Inhabited V] (m : TPartitionMap K V) (k k2 : K) (v : V)
    (h : k2 ≠ k) : (m.Put k v).Get k2 = m.Get k2 := by
  rw [Get_eq, Get_eq, Put_parts]
  by_cases hs : slotOf k2 = slotOf k
  · rw [if_pos hs, hs]
    rcases hp : m.parts (slotOf k) with _ | p
    · simp only [putTarget, hp, Option.getD_none]
      rw [tPartition.get_put_ne _ _ _ _ h, get_newPartition]
    · simp only [putTarget, hp, Option.getD_some]
      rw [tPartition.get_put_ne _ _ _ _ h]
  · rw [if_neg hs]

theorem Get_Delete_ne [Inhabited V] (m : TPartitionMap K V) (k k2 : K)
    (h : k2 ≠ k) : (m.Delete k).Get k2 = m.Get k2 := by
  rcases hp : m.parts (slotOf k) with _ | p
  · rw [Delete_eq_of_none m k hp]
  · rw [Get_eq, Get_eq, Delete_parts_of_some m k p hp]
    by_cases hs : slotOf k2 = slotOf k
    · rw [if_pos hs, hs, hp]
      dsimp only
      rw [tPartition.get_del_ne _ _ _ h]
    · rw [if_neg hs]

theorem Get_Delete_self [Inhabited V] (m : TPartitionMap K V) (k : K) :
    ((m.Delete k).Get k).2 = false := by
  rcases hp : m.parts (slotOf k) with _ | p
  · rw [Delete_eq_of_none m k hp, Get_eq, hp]
  · rw [Get_eq, Delete_parts_of_some m k p hp, if_pos rfl]
    dsimp only
    rw [tPartition.get_del_self]

theorem Delete_eq_self_of_not_found [Inhabited V] (m : TPartitionMap K V)
    (k : K) (h : (m.Get k).2 = false) : m.Delete k = m := by
  rcases hp : m.parts (slotOf k) with _ | p
  · exact Delete_eq_of_none m k hp
  · rw [Delete, partition_false_snd, hp]
    have hpf : (p.get k).2 = false := by
      rw [Get_eq, hp] at h
      exact h
    dsimp only
    rw [tPartition.del_eq_self_of_not_found p k hpf]
    exact setSlot_eq_self m _ p hp

/-! #### Invariant preservation -/

theorem inv_new : Inv (New : TPartitionMap K V) := by
  intro i p hp
  simp [New] at hp

theorem putTarget_spec (m : TPartitionMap K V) (h : Inv m)
    (i : Fin numberOfPartitionsInMap) :
    ((m.putTarget i).kv.map Prod.fst).Nodup ∧
      ∀ e ∈ (m.putTarget i).kv, slotOf e.1 = i := by
  rcases hp : m.parts i with _ | q
  · simp [putTarget, hp, tPartition.newPartition]
  · simpa [putTarget, hp] using h i q hp

theorem inv_put (m : TPartitionMap K V) (k : K) (v : V) (h : Inv m) :
    Inv (m.Put k v) := by
  intro i p hp
  rw [Put_parts] at hp
  by_cases hi : i = slotOf k
  · rw [if_pos hi] at hp
    have hpe : p = (m.putTarget (slotOf k)).put k v := (Option.some.inj hp).symm
    subst hpe
    rcases putTarget_spec m h (slotOf k) with ⟨hn, hr⟩
    constructor
    · exact tPartition.nodup_keys_put _ k v hn
    · intro e he
      rw [tPartition.put] at he
      simp only [List.mem_append, List.mem_filter, List.mem_singleton] at he
      rcases he with ⟨he, _⟩ | he
      · rw [hi]
        exact hr e he
      · subst he
        rw [hi]
  · rw [if_neg hi] at hp
    exact h i p hp

theorem inv_del (m : TPartitionMap K V) (k : K) (h : Inv m) :
    Inv (m.Delete k) := by
  rcases hp : m.parts (slotOf k) with _ | q
  · rw [Delete_eq_of_none m k hp]
    exact h
  · intro i p hip
    rw [Delete_parts_of_some m k q hp] at hip
    by_cases hi : i = slotOf k
    · rw [if_pos hi] at hip
      have hpe : p = q.del k := (Option.some.inj hip).symm
      subst hpe
      rcases h (slotOf k) q hp with ⟨hn, hr⟩
      refine ⟨tPartition.nodup_keys_del q k hn, ?_⟩
      intro e he
      rw [tPartition.del] at he
      simp only [List.mem_filter] at he
      rw [hi]
      exact hr e he.1
    · rw [if_neg hi] at hip
      exact h i p hip

theorem inv_clear (m : TPartitionMap K V) (h : Inv m) : Inv m.Clear := by
  intro i p hp
  rw [Clear_parts] at hp
  rcases hq : m.parts i with _ | q
  · rw [hq] at hp
    simp at hp
  · rw [hq] at hp
    simp only [Option.map_some'] at hp
    have hpe : p = q.clear := (Option.some.inj hp).symm
    subst hpe
    simp [tPartition.clear]

theorem reachable_inv (m : TPartitionMap K V) (h : Reachable m) : Inv m := by
  induction h with
  | new => exact inv_new
  | put m k v _ ih => exact inv_put m k v ih
  | del m k _ ih => exact inv_del m k ih
  | clear m _ ih => exact inv_clear m ih

/-! #### `Keys` and `Len` lemmas -/

theorem len_eq_length_allKeys (m : TPartitionMap K V) :
    m.Len = (allKeys m).length := by
  rw [Len, allKeys, List.flatMap_def, List.length_flatten, List.map_map]
  congr 1
  refine List.map_congr_left ?_
  intro i _
  rcases hp : m.parts i with _ | p
  · simp [optionLen, optionKeys, hp]
  · simp [optionLen, optionKeys, hp, tPartition.length_keys]

theorem allKeys_eq_nil (m : TPartitionMap K V) (h : m.Len = 0) :
    allKeys m = [] :=
  List.eq_nil_of_length_eq_zero (by rw [← len_eq_length_allKeys]; exact h)

theorem Keys_eq (m : TPartitionMap K V) :
    m.Keys = (allKeys m).insertionSort (· ≤ ·) := by
  by_cases h : m.Len = 0
  · rw [Keys, if_pos h, allKeys_eq_nil m h]
    rfl
  · rw [Keys, if_neg h]

theorem Keys_perm (m : TPartitionMap K V) : m.Keys.Perm (allKeys m) := by
  rw [Keys_eq]
  exact List.perm_insertionSort _ _

theorem sorted_Keys (m : TPartitionMap K V) : m.Keys.Sorted (· ≤ ·) := by
  rw [Keys_eq]
  exact List.sorted_insertionSort _ _

theorem len_eq_length_Keys (m : TPartitionMap K V) : m.Len = m.Keys.length :=
  (len_eq_length_allKeys m).trans (Keys_perm m).length_eq.symm

theorem slot_of_mem_optionKeys [Inhabited V] (m : TPartitionMap K V)
    (h : Inv m) (i : Fin numberOfPartitionsInMap) (k : K)
    (hk : k ∈ optionKeys (m.parts i)) : slotOf k = i ∧ (m.Get k).2 = true := by
  rcases hp : m.parts i with _ | p
  · rw [hp] at hk
    simp [optionKeys] at hk
  · rw [hp] at hk
    simp only [optionKeys] at hk
    have hfound := (tPartition.mem_keys p k).mp hk
    rcases (tPartition.found_iff p k).mp hfound with ⟨e, he, hek⟩
    have hslot : slotOf k = i := hek ▸ (h i p hp).2 e he
    refine ⟨hslot, ?_⟩
    rw [Get_eq, hslot, hp]
    exact hfound

theorem mem_allKeys [Inhabited V] (m : TPartitionMap K V) (h : Inv m) (k : K) :
    k ∈ allKeys m ↔ (m.Get k).2 = true := by
  constructor
  · intro hk
    rw [allKeys, List.mem_flatMap] at hk
    rcases hk with ⟨i, _, hki⟩
    exact (slot_of_mem_optionKeys m h i k hki).2
  · intro hf
    rw [allKeys, List.mem_flatMap]
    refine ⟨slotOf k, List.mem_finRange _, ?_⟩
    rw [Get_eq] at hf
    rcases hp : m.parts (slotOf k) with _ | p
    · rw [hp] at hf
      simp at hf
    · rw [hp] at hf
      dsimp only at hf
      simp only [optionKeys]
      exact (tPartition.mem_keys p k).mpr hf

theorem nodup_allKeys [Inhabited V] (m : TPartitionMap K V) (h : Inv m) :
    (allKeys m).Nodup := by
  rw [allKeys, List.nodup_flatMap]
  constructor
  · intro i _
    rcases hp : m.parts i with _ | p
    · simp [optionKeys]
    · simp only [optionKeys]
      exact (tPartition.keys_perm p).nodup_iff.mpr ((h i p hp).1)
  · have hnd := List.nodup_finRange numberOfPartitionsInMap
    refine hnd.imp ?_
    intro i j hij
    intro x hxi hxj
    have h1 := (slot_of_mem_optionKeys m h i x hxi).1
    have h2 := (slot_of_mem_optionKeys m h j x hxj).1
    exact hij (h1.symm.trans h2)

theorem nodup_Keys [Inhabited V] (m : TPartitionMap K V) (h : Inv m) :
    m.Keys.Nodup :=
  (Keys_perm m).nodup_iff.mpr (nodup_allKeys m h)

theorem mem_Keys [Inhabited V] (m : TPartitionMap K V) (h : Inv m) (k : K) :
    k ∈ m.Keys ↔ (m.Get k).2 = true :=
  (Keys_perm m).mem_iff.trans (mem_allKeys m h k)

/-! #### `Values` lemmas -/

theorem filterMap_congr_map {α β : Type _} (l : List α) (f : α → Option β)
    (g : α → β) (h : ∀ x ∈ l, f x = some (g x)) : l.filterMap f = l.map g := by
  induction l with
  | nil => rfl
  | cons a l ih =>
    rw [List.filterMap_cons_some (h a (List.mem_cons_self a l)), List.map_cons,
      ih (fun x hx => h x (List.mem_cons_of_mem a hx))]

theorem Values_eq [Inhabited V] (m : TPartitionMap K V) (h : Inv m) :
    m.Values = m.Keys.map (fun k => (m.Get k).1) := by
  rw [Values]
  apply filterMap_congr_map
  intro k hk
  have hf := (mem_Keys m h k).mp hk
  rw [partition_false_snd]
  rw [Get_eq] at hf ⊢
  rcases hp : m.parts (slotOf k) with _ | p
  · rw [hp] at hf
    simp at hf
  · rw [hp] at hf
    dsimp only at hf ⊢
    simp [hf]

/-! #### `String()` rendering lemmas -/

theorem join_append (a b : List String) :
    String.join (a ++ b) = String.join a ++ String.join b := by
  apply String.ext
  rw [String.join_eq, String.join_eq, String.join_eq, String.data_append]
  rw [List.map_append, List.flatten_append]

theorem join_map_join (L : List (List String)) :
    String.join (L.map String.join) = String.join L.flatten := by
  induction L with
  | nil => rfl
  | cons l ls ih =>
    rw [List.map_cons, List.flatten_cons]
    have hc : ∀ (s : String) (rest : List String),
        String.join (s :: rest) = s ++ String.join rest := by
      intro s rest
      apply String.ext
      rw [String.join_eq, String.join_eq, String.data_append, List.map_cons,
        List.flatten_cons]
    rw [hc, ih, join_append]

theorem mapToString_eq_join [Inhabited V] (showK : K → String)
    (showV : V → String) (m : TPartitionMap K V) :
    m.mapToString showK showV =
      String.join ((List.finRange numberOfPartitionsInMap).flatMap
        (slotLines showK showV m)) := by
  rw [mapToString, List.flatMap_def, ← join_map_join, List.map_map]
  congr 1
  refine List.map_congr_left ?_
  intro i _
  rcases hp : m.parts i with _ | p
  · simp [slotLines, hp]
    rfl
  · simp only [Function.comp_apply, slotLines, hp, tPartition.toString]

theorem lines_eq_map_allKeys [Inhabited V] (showK : K → String)
    (showV : V → String) (m : TPartitionMap K V) (h : Inv m) :
    (List.finRange numberOfPartitionsInMap).flatMap (slotLines showK showV m) =
      (allKeys m).map (fun k => showK k ++ ": \x27" ++ showV ((m.Get k).1) ++ "\x27\n") := by
  rw [allKeys, List.map_flatMap]
  rw [List.flatMap_def, List.flatMap_def]
  congr 1
  refine List.map_congr_left ?_
  intro i _
  rcases hp : m.parts i with _ | p
  · simp [slotLines, optionKeys, hp]
  · simp only [slotLines, optionKeys, hp]
    refine List.map_congr_left ?_
    intro k hk
    have hs := slot_of_mem_optionKeys m h i k (by rw [hp]; simpa [optionKeys] using hk)
    have hGet : m.Get k = p.get k := by
      rw [Get_eq, hs.1, hp]
    rw [hGet]

end TPartitionMap

open TPartitionMap

/-! ### The claims -/

/-- C3: for every integer-typed key, the computed partition index equals the
key's value modulo the number of partitions (the mathematical, non-negative
residue). This holds for every `Int` value, hence for the value range of
every signed or unsigned Go integer type; the key `0` falls through to the
checksum of the empty byte slice, which is `0 = 0 % 128` as well. -/
theorem claim_c3 (val : Int) :
    (partitionIndexInt val : Int) = val % (numberOfPartitionsInMap : Int) := by
  have h128 : ((numberOfPartitionsInMap : Nat) : Int) = 128 := by
    norm_num [numberOfPartitionsInMap]
  have hdvd : (128 : Int) ∣ (2 : Int) ^ 64 := by norm_num
  have hnn : 0 ≤ val % (2 : Int) ^ 64 := Int.emod_nonneg val (by norm_num)
  rw [partitionIndexInt]
  by_cases h : 0 < uint64OfInt val
  · rw [if_pos h]
    push_cast [h128]
    rw [uint64OfInt, Int.toNat_of_nonneg hnn, Int.emod_emod_of_dvd val hdvd]
  · rw [if_neg h]
    have h0 : uint64OfInt val = 0 := Nat.eq_zero_of_not_pos h
    have hv : val % (2 : Int) ^ 64 = 0 := by
      rw [uint64OfInt] at h0
      omega
    have hv128 : val % (128 : Int) = 0 := by
      have h2 := Int.emod_emod_of_dvd val hdvd
      rw [hv] at h2
      simpa using h2.symm
    rw [h128, hv128]
    norm_num [show crc32Checksum [] = 0 from rfl, numberOfPartitionsInMap]

/-- C4: the shard-index computation is deterministic (it is a pure function
of the key) and its result is always below the number of partitions, so the
slot-array access is in bounds; stated for both the integer fast path and
the string/CRC32 path. -/
theorem claim_c4 :
    (∀ val : Int, partitionIndexInt val = partitionIndexInt val ∧
      partitionIndexInt val < numberOfPartitionsInMap) ∧
    (∀ s : String, partitionIndexString s = partitionIndexString s ∧
      partitionIndexString s < numberOfPartitionsInMap) :=
  ⟨fun val => ⟨rfl, partitionIndexInt_lt val⟩,
   fun s => ⟨rfl, partitionIndexString_lt s⟩⟩

/-- C1: on any map state, `Put(k, v)` followed by `Get(k)` yields `(v, true)`;
`Put(k, v1)` then `Put(k, v2)` then `Get(k)` yields `(v2, true)`; and on any
reachable map the key occurs exactly once in `Keys()` afterwards — the last
write wins and no duplicate entry is created. -/
theorem claim_c1 {K V : Type} [LinearOrder K] [DecidableEq K] [PartitionKey K]
    [Inhabited V] (m : TPartitionMap K V) (k : K) (v v1 v2 : V) :
    (m.Put k v).Get k = (v, true) ∧
    ((m.Put k v1).Put k v2).Get k = (v2, true) ∧
    (Reachable m → (((m.Put k v1).Put k v2).Keys).count k = 1) := by
  refine ⟨Get_Put_self m k v, Get_Put_self _ k v2, ?_⟩
  intro hr
  have hr2 : Reachable ((m.Put k v1).Put k v2) :=
    Reachable.put _ k v2 (Reachable.put _ k v1 hr)
  have hinv := reachable_inv _ hr2
  have hmem : k ∈ ((m.Put k v1).Put k v2).Keys :=
    (mem_Keys _ hinv k).mpr (by rw [Get_Put_self])
  exact List.count_eq_one_of_mem (nodup_Keys _ hinv) hmem

set_option maxRecDepth 100000 in
/-- C1 witness: the round-trip and last-write-wins behaviour at a concrete
map with integer keys. -/
theorem claim_c1_witness :
    (((New : TPartitionMap Int Nat).Put 5 1).Get 5 = (1, true)) ∧
    ((((New : TPartitionMap Int Nat).Put 5 2).Put 5 3).Get 5 = (3, true)) ∧
    ((((New : TPartitionMap Int Nat).Put 5 2).Put 5 3).Keys).count 5 = 1 :=
  ⟨(claim_c1 New 5 1 2 3).1, (claim_c1 New 5 1 2 3).2.1,
    (claim_c1 New 5 1 2 3).2.2 Reachable.new⟩

/-- C2: on every reachable map, `Keys()` is sorted ascending, duplicate-free,
contains exactly the keys `Get` finds, `Len()` equals `len(Keys())`, and an
empty map yields the empty (not absent) key sequence. -/
theorem claim_c2 {K V : Type} [LinearOrder K] [DecidableEq K] [PartitionKey K]
    [Inhabited V] (m : TPartitionMap K V) (h : Reachable m) :
    m.Keys.Sorted (· ≤ ·) ∧ m.Keys.Nodup ∧
    (∀ k, k ∈ m.Keys ↔ (m.Get k).2 = true) ∧
    m.Len = m.Keys.length ∧
    (m.Len = 0 → KeysRef (some m) = some ([] : List K)) := by
  have hinv := reachable_inv m h
  refine ⟨sorted_Keys m, nodup_Keys m hinv, fun k => mem_Keys m hinv k,
    len_eq_length_Keys m, ?_⟩
  intro h0
  have hempty : m.Keys = [] := by rw [Keys, if_pos h0]
  show some m.Keys = some ([] : List K)
  rw [hempty]

set_option maxRecDepth 100000 in
/-- C2 witness: the key/length bookkeeping at a concrete reachable map. -/
theorem claim_c2_witness :
    ((New : TPartitionMap Int Nat).Put 5 1).Keys.Sorted (· ≤ ·) ∧
    ((New : TPartitionMap Int Nat).Put 5 1).Len
      = ((New : TPartitionMap Int Nat).Put 5 1).Keys.length ∧
    ((New : TPartitionMap Int Nat).Put 5 1).Keys = [5] :=
  ⟨(claim_c2 _ (Reachable.put _ 5 1 Reachable.new)).1,
   (claim_c2 _ (Reachable.put _ 5 1 Reachable.new)).2.2.2.1,
   by decide⟩

set_option maxRecDepth 1000000 in
/-- C5 counterexample: with integer keys `129` (slot 1) and `2` (slot 2),
`String()` renders the slot-1 partition first, so its lines are *not* in the
ascending-key order of `Keys() = [2, 129]`, and each line has the form
`key: 'value'` (value wrapped in single quotes), not `key: value` as the
claim states. `specStringify` renders what the claim describes. -/
theorem claim_c5_counterexample :
    mapToString (fun i : Int => ToString.toString i) id
        (((New : TPartitionMap Int String).Put 129 "x").Put 2 "y")
      = "129: \x27x\x27\n2: \x27y\x27\n" ∧
    specStringify (fun i : Int => ToString.toString i) id
        (((New : TPartitionMap Int String).Put 129 "x").Put 2 "y")
      = "2: y\n129: x\n" ∧
    (((New : TPartitionMap Int String).Put 129 "x").Put 2 "y").Keys = [2, 129] ∧
    mapToString (fun i : Int => ToString.toString i) id
        (((New : TPartitionMap Int String).Put 129 "x").Put 2 "y")
      ≠ specStringify (fun i : Int => ToString.toString i) id
        (((New : TPartitionMap Int String).Put 129 "x").Put 2 "y") := by
  refine ⟨?_, ?_, ?_, ?_⟩
  · decide
  · decide
  · decide
  · decide

/-- C5 amended: on every reachable map the string representation is the
concatenation of one line per entry of the form `key: 'value'` with a
trailing newline (the multiset of lines is exactly one line per key of
`Keys()`), and the empty map renders as the empty string; the lines appear
grouped by partition slot, not necessarily in the global `Keys()` order. -/
theorem claim_c5_amended {K V : Type} [LinearOrder K] [DecidableEq K]
    [PartitionKey K] [Inhabited V] (showK : K → String) (showV : V → String)
    (m : TPartitionMap K V) (h : Reachable m) :
    (∃ lines : List String,
      m.mapToString showK showV = String.join lines ∧
      lines.Perm ((m.Keys).map
        (fun k => showK k ++ ": \x27" ++ showV ((m.Get k).1) ++ "\x27\n"))) ∧
    (m.Len = 0 → m.mapToString showK showV = "") := by
  have hinv := reachable_inv m h
  have hlines := lines_eq_map_allKeys showK showV m hinv
  constructor
  · refine ⟨(allKeys m).map
      (fun k => showK k ++ ": \x27" ++ showV ((m.Get k).1) ++ "\x27\n"), ?_, ?_⟩
    · rw [mapToString_eq_join, hlines]
    · exact ((Keys_perm m).map _).symm
  · intro h0
    rw [mapToString_eq_join, hlines, allKeys_eq_nil m h0]
    rfl

set_option maxRecDepth 100000 in
/-- C5 amended witness: the amended statement at the counterexample map. -/
theorem claim_c5_amended_witness :
    (∃ lines : List String,
      mapToString (fun i : Int => ToString.toString i) id
          (((New : TPartitionMap Int String).Put 129 "x").Put 2 "y")
        = String.join lines ∧
      lines.Perm (((((New : TPartitionMap Int String).Put 129 "x").Put 2 "y").Keys).map
        (fun k => ToString.toString k ++ ": \x27" ++
          id (((((New : TPartitionMap Int String).Put 129 "x").Put 2 "y").Get k).1) ++ "\x27\n"))) ∧
    ((((New : TPartitionMap Int String).Put 129 "x").Put 2 "y").Len = 0 →
      mapToString (fun i : Int => ToString.toString i) id
        (((New : TPartitionMap Int String).Put 129 "x").Put 2 "y") = "") :=
  claim_c5_amended (fun i : Int => ToString.toString i) id _
    (Reachable.put _ 2 "y" (Reachable.put _ 129 "x" Reachable.new))

/-- C6: every exported operation invoked on a nil (never constructed) map
reference returns its documented neutral value — `false`/zero/empty/absent,
or the nil self reference for the chaining methods — and performs no
mutation. -/
theorem claim_c6 {K V : Type} [LinearOrder K] [DecidableEq K] [PartitionKey K]
    [Inhabited V] (showK : K → String) (showV : V → String) (k : K) (v d : V) :
    PutRef (none : Option (TPartitionMap K V)) k v = none ∧
    GetRef (none : Option (TPartitionMap K V)) k = (default, false) ∧
    GetOrDefaultRef (none : Option (TPartitionMap K V)) k d = d ∧
    DeleteRef (none : Option (TPartitionMap K V)) k = none ∧
    ClearRef (none : Option (TPartitionMap K V)) = none ∧
    ForEachRef (none : Option (TPartitionMap K V)) = (none, []) ∧
    KeysRef (none : Option (TPartitionMap K V)) = none ∧
    LenRef (none : Option (TPartitionMap K V)) = 0 ∧
    ValuesRef (none : Option (TPartitionMap K V)) = none ∧
    PartitionStatsRef (none : Option (TPartitionMap K V)) = none ∧
    StringRef showK showV (none : Option (TPartitionMap K V)) = "" :=
  ⟨rfl, rfl, rfl, rfl, rfl, rfl, rfl, rfl, rfl, rfl, rfl⟩

/-- C7: deleting an absent key (including a key whose shard is unallocated)
leaves the map state — hence `Get` on every key, `Len`, `Keys` — unchanged,
and `Delete` twice in a row equals `Delete` once. -/
theorem claim_c7 {K V : Type} [LinearOrder K] [DecidableEq K] [PartitionKey K]
    [Inhabited V] (m : TPartitionMap K V) (k : K) :
    ((m.Get k).2 = false →
      m.Delete k = m ∧ (∀ k2, (m.Delete k).Get k2 = m.Get k2) ∧
      (m.Delete k).Len = m.Len ∧ (m.Delete k).Keys = m.Keys) ∧
    (m.Delete k).Delete k = m.Delete k := by
  constructor
  · intro h
    have he := Delete_eq_self_of_not_found m k h
    exact ⟨he, fun k2 => by rw [he], by rw [he], by rw [he]⟩
  · exact Delete_eq_self_of_not_found (m.Delete k) k (Get_Delete_self m k)

set_option maxRecDepth 100000 in
/-- C7 witness: deleting the absent key `7` from a concrete map is a no-op. -/
theorem claim_c7_witness :
    ((((New : TPartitionMap Int Nat).Put 5 1).Get 7).2 = false) ∧
    ((New : TPartitionMap Int Nat).Put 5 1).Delete 7
      = (New : TPartitionMap Int Nat).Put 5 1 :=
  ⟨by decide, ((claim_c7 ((New : TPartitionMap Int Nat).Put 5 1) 7).1 (by decide)).1⟩

/-- C8: on every reachable map, `Values()` returns the values in key-sorted
order — it is exactly `Keys()` mapped through `Get`. -/
theorem claim_c8 {K V : Type} [LinearOrder K] [DecidableEq K] [PartitionKey K]
    [Inhabited V] (m : TPartitionMap K V) (h : Reachable m) :
    m.Values = m.Keys.map (fun k => (m.Get k).1) :=
  Values_eq m (reachable_inv m h)

set_option maxRecDepth 1000000 in
/-- C8 witness: the concrete scenario — `Put("a",1)`, `Put("b",2)`,
`Put("a",3)` gives `Len() = 2`, `Get("a") = (3, true)`, `Keys() = ["a","b"]`
and `Values() = [3, 2]`. -/
theorem claim_c8_witness :
    ((((New : TPartitionMap String Nat).Put "a" 1).Put "b" 2).Put "a" 3).Len = 2 ∧
    ((((New : TPartitionMap String Nat).Put "a" 1).Put "b" 2).Put "a" 3).Get "a" = (3, true) ∧
    ((((New : TPartitionMap String Nat).Put "a" 1).Put "b" 2).Put "a" 3).Keys = ["a", "b"] ∧
    ((((New : TPartitionMap String Nat).Put "a" 1).Put "b" 2).Put "a" 3).Values = [3, 2] := by
  have hr : Reachable ((((New : TPartitionMap String Nat).Put "a" 1).Put "b" 2).Put "a" 3) :=
    Reachable.put _ "a" 3 (Reachable.put _ "b" 2 (Reachable.put _ "a" 1 Reachable.new))
  have hkeys : ((((New : TPartitionMap String Nat).Put "a" 1).Put "b" 2).Put "a" 3).Keys
      = ["a", "b"] := by
    have hab : ("a" : String) ≤ "b" := String.le_iff_toList_le.mpr (by decide)
    have h0 : ¬ ((((New : TPartitionMap String Nat).Put "a" 1).Put "b" 2).Put "a" 3).Len = 0 := by
      decide
    have h1 : allKeys ((((New : TPartitionMap String Nat).Put "a" 1).Put "b" 2).Put "a" 3)
        = ["a", "b"] := by decide
    rw [Keys, if_neg h0, h1]
    simp [List.insertionSort, List.orderedInsert, hab]
  refine ⟨by decide, by decide, hkeys, ?_⟩
  rw [claim_c8 _ hr, hkeys]
  decide

/-- C9: the slot array's length is fixed at 128 and unchanged by every
operation; allocatedness of a slot is monotone (a non-empty slot never
becomes empty, so slots transition empty-to-allocated at most once); and
`Clear` empties an allocated partition's contents without deallocating it. -/
theorem claim_c9 {K V : Type} [LinearOrder K] [DecidableEq K] [PartitionKey K]
    (m : TPartitionMap K V) (k : K) (v : V) :
    (slotList m).length = numberOfPartitionsInMap ∧
    (slotList (m.Put k v)).length = (slotList m).length ∧
    (slotList (m.Delete k)).length = (slotList m).length ∧
    (slotList m.Clear).length = (slotList m).length ∧
    (∀ i, (m.parts i).isSome = true → ((m.Put k v).parts i).isSome = true) ∧
    (∀ i, (m.parts i).isSome = true → ((m.Delete k).parts i).isSome = true) ∧
    (∀ i, (m.parts i).isSome = true → (m.Clear.parts i).isSome = true) ∧
    (∀ i, m.parts i = none → m.Clear.parts i = none) ∧
    (∀ i p, m.parts i = some p →
      m.Clear.parts i = some (⟨[]⟩ : tPartition K V)) := by
  refine ⟨by simp [slotList], by simp [slotList], by simp [slotList],
    by simp [slotList], ?_, ?_, ?_, ?_, ?_⟩
  · intro i hi
    rw [Put_parts]
    by_cases hik : i = slotOf k
    · rw [if_pos hik]
      rfl
    · rw [if_neg hik]
      exact hi
  · intro i hi
    rcases hp : m.parts (slotOf k) with _ | p
    · rw [Delete_eq_of_none m k hp]
      exact hi
    · rw [Delete_parts_of_some m k p hp]
      by_cases hik : i = slotOf k
      · rw [if_pos hik]
        rfl
      · rw [if_neg hik]
        exact hi
  · intro i hi
    rw [Clear_parts]
    rcases hp : m.parts i with _ | p
    · rw [hp] at hi
      simp at hi
    · rfl
  · intro i hi
    rw [Clear_parts, hi]
    rfl
  · intro i p hp
    rw [Clear_parts, hp]
    rfl

set_option maxRecDepth 100000 in
/-- C9 witness: an allocated slot stays allocated across a further `Put`. -/
theorem claim_c9_witness :
    ((((New : TPartitionMap Int Nat).Put 5 1).parts (slotOf (5 : Int))).isSome = true) ∧
    (((((New : TPartitionMap Int Nat).Put 5 1).Put 7 2).parts (slotOf (5 : Int))).isSome = true) :=
  ⟨by decide,
   (claim_c9 ((New : TPartitionMap Int Nat).Put 5 1) 7 2).2.2.2.2.1
     (slotOf (5 : Int)) (by decide)⟩

/-- C10: single-key writes never affect any other key — for distinct keys
`k ≠ k2`, `Put(k, v)` and `Delete(k)` leave `Get(k2)` (value and found flag)
unchanged, including when both keys share a partition. -/
theorem claim_c10 {K V : Type} [LinearOrder K] [DecidableEq K] [PartitionKey K]
    [Inhabited V] (m : TPartitionMap K V) (k k2 : K) (v : V) (h : k ≠ k2) :
    (m.Put k v).Get k2 = m.Get k2 ∧ (m.Delete k).Get k2 = m.Get k2 :=
  ⟨Get_Put_ne m k k2 v (Ne.symm h), Get_Delete_ne m k k2 (Ne.symm h)⟩

set_option maxRecDepth 100000 in
/-- C10 witness: writing and deleting key `5` leaves key `133` (which shares
slot 5 with it) untouched. -/
theorem claim_c10_witness :
    ((((New : TPartitionMap Int Nat).Put 133 9).Put 5 1).Get 133
      = ((New : TPartitionMap Int Nat).Put 133 9).Get 133) ∧
    ((((New : TPartitionMap Int Nat).Put 133 9).Delete 5).Get 133
      = ((New : TPartitionMap Int Nat).Put 133 9).Get 133) :=
  claim_c10 ((New : TPartitionMap Int Nat).Put 133 9) 5 133 1 (by decide)

end PartitionMap
